import Mathlib

/-!
Verification development for the protection layer of the Mitr chatbot
repository: the sliding-window rate limiter (services/rate_limiter.py) and
the smart response cache (services/cache_manager.py).

Conventions of the embedding:
* Wall-clock instants (Python `time.time()` / `datetime.now()`) are rationals
  (seconds).  Durations configured in the source are integers.
* Python `int(x)` (truncation toward zero) is `pyInt`.
* Python dicts keyed by strings are association lists; all reachable states
  have unique keys, and the operations below agree with dict semantics on
  such states.
* `st.session_state` globals (`selected_area`) and the clock are gathered in
  an explicit `Ctx` record passed to each operation.
-/

/-- Python `int()` on a rational: truncation toward zero. -/
def pyInt (q : ℚ) : ℤ := q.num.tdiv q.den

/-- Python `a or b` for strings: `b` when `a` is empty (falsy), else `a`. -/
def pyOrStr (a b : String) : String := if a = "" then b else a

/-- Python `s.lower()` (ASCII case folding, as in `Char.toLower`). -/
def pyLower (s : String) : String := String.mk (s.data.map Char.toLower)

/-- Python `s.strip()` : drop leading and trailing whitespace. -/
def pyStrip (s : String) : String :=
  String.mk (((s.data.dropWhile Char.isWhitespace).reverse.dropWhile Char.isWhitespace).reverse)

/-- Python `s[:n]` on strings (take the first `n` characters). -/
def pyTake (s : String) (n : ℕ) : String := String.mk (s.data.take n)

/-- Python `min` over a nonempty list (0 as a junk value for the empty list,
which the source never passes). -/
def minD : List ℚ → ℚ
  | [] => 0
  | x :: xs => xs.foldl min x

/-- First-match association-list lookup, mirroring a Python dict read. -/
def alistLookup {β : Type} : List (String × β) → String → Option β
  | [], _ => none
  | p :: l, k => if p.1 = k then some p.2 else alistLookup l k

/-- Python `del d[k]`. -/
def alistErase {β : Type} (l : List (String × β)) (k : String) : List (String × β) :=
  l.filter (fun p => decide (p.1 ≠ k))

/-- Python `d[k] = v`: replace in place when the key is present (a Python dict
keeps the key's position), append otherwise. -/
def alistSet {β : Type} (l : List (String × β)) (k : String) (v : β) : List (String × β) :=
  if (alistLookup l k).isSome then
    l.map (fun p => if p.1 = k then (k, v) else p)
  else
    l ++ [(k, v)]

/-! ## Rate limiter (services/rate_limiter.py) -/

/-- Configuration of `RateLimiter.__init__`. -/
structure RateLimiter where
  max_requests : ℕ
  window_seconds : ℕ
deriving DecidableEq

/-- `RateLimiter._requests`: per-identity timestamp lists. -/
abbrev RLState := List (String × List ℚ)

/-- `RateLimiter._cleanup_old_requests`: keep timestamps strictly newer than
`now - window_seconds`; drop the identity entirely when none remain. -/
def RateLimiter.cleanup_old_requests (rl : RateLimiter) (st : RLState)
    (user_id : String) (now : ℚ) : RLState :=
  match alistLookup st user_id with
  | none => st
  | some ts =>
    let cutoff : ℚ := now - (rl.window_seconds : ℚ)
    let kept := ts.filter (fun r => decide (cutoff < r))
    if kept = [] then alistErase st user_id else alistSet st user_id kept

/-- `RateLimiter.is_allowed`: prune, compare the count against the limit,
record the request on success.  Returns the decision and the new state. -/
def RateLimiter.is_allowed (rl : RateLimiter) (st : RLState)
    (user_id : String) (now : ℚ) : Bool × RLState :=
  let st1 := rl.cleanup_old_requests st user_id now
  let current := (alistLookup st1 user_id).getD []
  if rl.max_requests ≤ current.length then
    (false, st1)
  else
    (true, alistSet st1 user_id (current ++ [now]))

/-- `RateLimiter.get_retry_after`: seconds until the oldest recorded
timestamp leaves the window, floored at 0; 0 with no recorded requests. -/
def RateLimiter.get_retry_after (rl : RateLimiter) (st : RLState)
    (user_id : String) (now : ℚ) : ℤ :=
  match alistLookup st user_id with
  | none => 0
  | some ts =>
    if ts = [] then 0
    else max 0 (pyInt (minD ts + (rl.window_seconds : ℚ) - now))

/-- Iterated `is_allowed` calls from an empty table, the `k`-th call at time
`t k` (claim C1's scenario of successive checks). -/
def rlIter (rl : RateLimiter) (uid : String) (t : ℕ → ℚ) : ℕ → RLState
  | 0 => []
  | k + 1 => (rl.is_allowed (rlIter rl uid t k) uid (t k)).2

/-- The request table predicted after `k` successive in-window calls: the
first `k` call times, all retained. -/
def rlExpected (uid : String) (t : ℕ → ℚ) : ℕ → RLState
  | 0 => []
  | k + 1 => [(uid, (List.range (k + 1)).map t)]

/-! ## Smart TTL policy (cache_manager.py, class SmartTTL) -/

/-- `SmartTTL.RULES`. -/
def SmartTTL.RULES : List (String × ℤ) :=
  [("monuments", 86400), ("temples", 86400), ("museums", 86400),
   ("history", 86400), ("landmarks", 86400),
   ("food", 21600), ("shopping", 21600), ("movies", 21600), ("itinerary", 21600),
   ("news", 3600), ("events", 3600), ("crowd", 3600),
   ("weather", 600), ("traffic", 600), ("fuel", 1800), ("metro", 1800), ("bus", 1800),
   ("utilities", 0), ("deals", 0), ("live_deals", 0),
   ("chat", 300), ("default", 600)]

/-- `SmartTTL.get_ttl`: lower-case the intent (falling back to "default" for
the empty, falsy string), look it up, default to `RULES["default"]`. -/
def SmartTTL.get_ttl (intent : String) : ℤ :=
  let intent_lower := if intent = "" then "default" else pyLower intent
  (alistLookup SmartTTL.RULES intent_lower).getD
    ((alistLookup SmartTTL.RULES "default").getD 0)

/-- `SmartTTL.should_cache`: cache exactly when the TTL is positive. -/
def SmartTTL.should_cache (intent : String) : Bool :=
  decide (0 < SmartTTL.get_ttl intent)

/-! ## Cache data model -/

/-- The metadata bag built by `ResponseCache.set` (only these keys are ever
read by the source). -/
structure Metadata where
  date : String
  area : String
  intent : String
  query : String
  ttl : ℤ
deriving DecidableEq

/-- Caller-supplied extra metadata (the `metadata` dict merged by
`cache_metadata.update(metadata)`), restricted to the keys the source reads. -/
structure MetaOverride where
  date : Option String
  area : Option String
  intent : Option String
  query : Option String
  ttl : Option ℤ
deriving DecidableEq

/-- The empty override (`metadata=None`). -/
def noOverride : MetaOverride := ⟨none, none, none, none, none⟩

/-- `cache_metadata.update(metadata)`. -/
def applyOverride (m : Metadata) (ov : MetaOverride) : Metadata :=
  { date := ov.date.getD m.date
    area := ov.area.getD m.area
    intent := ov.intent.getD m.intent
    query := ov.query.getD m.query
    ttl := ov.ttl.getD m.ttl }

/-- One stored cache entry. -/
structure CacheEntry where
  response : String
  timestamp : ℚ
  metadata : Metadata
deriving DecidableEq

/-- `st.session_state.cache_stats`. -/
structure Stats where
  hits : ℕ
  misses : ℕ
  invalidations : ℕ
  total_queries : ℕ
deriving DecidableEq

/-- The cache store plus its statistics. -/
structure CacheState where
  cache : List (String × CacheEntry)
  stats : Stats
deriving DecidableEq

/-- Ambient context: the clock and the session globals read by the source. -/
structure Ctx where
  now : ℚ
  currentDate : String
  currentArea : String
  currentHour : ℕ
deriving DecidableEq

def bumpHits (s : Stats) : Stats := { s with hits := s.hits + 1 }
def bumpMisses (s : Stats) : Stats := { s with misses := s.misses + 1 }
def bumpInvalidations (s : Stats) : Stats := { s with invalidations := s.invalidations + 1 }

/-! ## Smart invalidation (class CacheInvalidator) -/

/-- `CacheInvalidator.should_invalidate`.  `hoursOld` and `minutesOld` are the
age fields `ResponseCache.get` merges into the metadata just before the call
(`age/3600` and `age/60`). -/
def CacheInvalidator.should_invalidate (metadata : Metadata)
    (hoursOld minutesOld : ℚ) (ctx : Ctx) : Bool :=
  let intent := metadata.intent
  let cached_date := metadata.date
  let cached_area := metadata.area
  if (intent = "events" ∨ intent = "deals" ∨ intent = "news") ∧
      cached_date ≠ ctx.currentDate then true
  else if (intent = "weather" ∨ intent = "traffic" ∨ intent = "food" ∨ intent = "shopping") ∧
      ctx.currentArea ≠ "" ∧ cached_area ≠ ctx.currentArea then true
  else if intent = "weather" ∧ (1 / 2 : ℚ) < hoursOld then true
  else if intent = "traffic" ∧
      ((8 ≤ ctx.currentHour ∧ ctx.currentHour ≤ 10) ∨
       (17 ≤ ctx.currentHour ∧ ctx.currentHour ≤ 20)) ∧
      (5 : ℚ) < minutesOld then true
  else false

/-! ## Response cache store (class ResponseCache) -/

/-- Descending-by-timestamp ordering used by `_cleanup_if_needed`
(`sorted(..., key=lambda x: x[1]['timestamp'], reverse=True)`). -/
def tsGe (a b : String × CacheEntry) : Prop := b.2.timestamp ≤ a.2.timestamp

instance : DecidableRel tsGe := fun a b => inferInstanceAs (Decidable (_ ≤ _))

instance : IsTotal (String × CacheEntry) tsGe :=
  ⟨fun a b => le_total b.2.timestamp a.2.timestamp⟩

instance : IsTrans (String × CacheEntry) tsGe :=
  ⟨fun _ _ _ h h' => le_trans h' h⟩

/-- Python's stable `sorted(cache.items(), key=timestamp, reverse=True)`:
insertion sort is the stable sort, so it computes the same list. -/
def sortByTsDesc (l : List (String × CacheEntry)) : List (String × CacheEntry) :=
  List.insertionSort tsGe l

/-- `ResponseCache._cleanup_if_needed`. -/
def cleanup_if_needed (max_entries : ℕ) (cache : List (String × CacheEntry)) :
    List (String × CacheEntry) :=
  if cache.length ≤ max_entries then cache
  else (sortByTsDesc cache).take max_entries

/-- `ResponseCache.get`: returns the cached response (or `none`) and the
updated state. -/
def ResponseCache.get (st : CacheState) (ctx : Ctx)
    (cache_key query intent : String) : Option String × CacheState :=
  match alistLookup st.cache cache_key with
  | none => (none, { cache := st.cache, stats := bumpMisses st.stats })
  | some entry =>
    let age : ℚ := ctx.now - entry.timestamp
    if CacheInvalidator.should_invalidate entry.metadata (age / 3600) (age / 60) ctx then
      (none, { cache := alistErase st.cache cache_key
               stats := bumpMisses (bumpInvalidations st.stats) })
    else
      let ttl := SmartTTL.get_ttl (pyOrStr intent entry.metadata.intent)
      if ttl < pyInt age then
        (none, { cache := alistErase st.cache cache_key
                 stats := bumpMisses st.stats })
      else
        (some entry.response, { cache := st.cache, stats := bumpHits st.stats })

/-- Python `ttl or SmartTTL.get_ttl(intent)` (both `None` and `0` are falsy). -/
def pyOrTtl (ttl : Option ℤ) (intent : String) : ℤ :=
  match ttl with
  | none => SmartTTL.get_ttl intent
  | some t => if t = 0 then SmartTTL.get_ttl intent else t

/-- The metadata `ResponseCache.set` stores (base dict merged with the
caller-supplied extras). -/
def setMetadata (ctx : Ctx) (query intent : String) (ttl : Option ℤ)
    (ov : MetaOverride) : Metadata :=
  applyOverride
    { date := ctx.currentDate
      area := ctx.currentArea
      intent := intent
      query := pyTake query 100
      ttl := pyOrTtl ttl intent } ov

/-- `ResponseCache.set`. -/
def ResponseCache.set (st : CacheState) (ctx : Ctx)
    (cache_key response query intent : String) (ttl : Option ℤ)
    (ov : MetaOverride) : CacheState :=
  if SmartTTL.should_cache intent then
    let entry : CacheEntry :=
      { response := response
        timestamp := ctx.now
        metadata := setMetadata ctx query intent ttl ov }
    { cache := cleanup_if_needed 100 (alistSet st.cache cache_key entry)
      stats := st.stats }
  else st

/-- The empty cache state. -/
def initialCacheState : CacheState :=
  { cache := [], stats := { hits := 0, misses := 0, invalidations := 0, total_queries := 0 } }

/-! ## Cache key generation (generate_cache_key)

The source hashes the normalized composite string with `hashlib.md5` and
returns the hex digest.  MD5 (RFC 1321) is embedded below over `ℕ`-valued
bytes and 32-bit words (explicit `% 2 ^ 32`). -/

/-- Mask to 32 bits. -/
def m32 (x : ℕ) : ℕ := x % 4294967296

/-- 32-bit left rotation. -/
def rotl32 (x s : ℕ) : ℕ := m32 ((m32 x) <<< s) ||| ((m32 x) >>> (32 - s))

/-- 32-bit complement. -/
def not32 (x : ℕ) : ℕ := x ^^^ 4294967295

def mdF (b c d : ℕ) : ℕ := (b &&& c) ||| ((not32 b) &&& d)
def mdG (b c d : ℕ) : ℕ := (d &&& b) ||| ((not32 d) &&& c)
def mdH (b c d : ℕ) : ℕ := b ^^^ c ^^^ d
def mdI (b c d : ℕ) : ℕ := c ^^^ (b ||| (not32 d))

/-- The 64 sine-derived MD5 constants. -/
def md5K : List ℕ :=
  [0xd76aa478, 0xe8c7b756, 0x242070db, 0xc1bdceee,
   0xf57c0faf, 0x4787c62a, 0xa8304613, 0xfd469501,
   0x698098d8, 0x8b44f7af, 0xffff5bb1, 0x895cd7be,
   0x6b901122, 0xfd987193, 0xa679438e, 0x49b40821,
   0xf61e2562, 0xc040b340, 0x265e5a51, 0xe9b6c7aa,
   0xd62f105d, 0x02441453, 0xd8a1e681, 0xe7d3fbc8,
   0x21e1cde6, 0xc33707d6, 0xf4d50d87, 0x455a14ed,
   0xa9e3e905, 0xfcefa3f8, 0x676f02d9, 0x8d2a4c8a,
   0xfffa3942, 0x8771f681, 0x6d9d6122, 0xfde5380c,
   0xa4beea44, 0x4bdecfa9, 0xf6bb4b60, 0xbebfbc70,
   0x289b7ec6, 0xeaa127fa, 0xd4ef3085, 0x04881d05,
   0xd9d4d039, 0xe6db99e5, 0x1fa27cf8, 0xc4ac5665,
   0xf4292244, 0x432aff97, 0xab9423a7, 0xfc93a039,
   0x655b59c3, 0x8f0ccc92, 0xffeff47d, 0x85845dd1,
   0x6fa87e4f, 0xfe2ce6e0, 0xa3014314, 0x4e0811a1,
   0xf7537e82, 0xbd3af235, 0x2ad7d2bb, 0xeb86d391]

/-- The per-round shift amounts. -/
def md5S : List ℕ :=
  [7, 12, 17, 22, 7, 12, 17, 22, 7, 12, 17, 22, 7, 12, 17, 22,
   5, 9, 14, 20, 5, 9, 14, 20, 5, 9, 14, 20, 5, 9, 14, 20,
   4, 11, 16, 23, 4, 11, 16, 23, 4, 11, 16, 23, 4, 11, 16, 23,
   6, 10, 15, 21, 6, 10, 15, 21, 6, 10, 15, 21, 6, 10, 15, 21]

/-- One of the 64 MD5 rounds; `M j` is the `j`-th 32-bit word of the block. -/
def md5Round (M : ℕ → ℕ) (st : ℕ × ℕ × ℕ × ℕ) (i : ℕ) : ℕ × ℕ × ℕ × ℕ :=
  let a := st.1
  let b := st.2.1
  let c := st.2.2.1
  let d := st.2.2.2
  let fg : ℕ × ℕ :=
    if i < 16 then (mdF b c d, i)
    else if i < 32 then (mdG b c d, (5 * i + 1) % 16)
    else if i < 48 then (mdH b c d, (3 * i + 5) % 16)
    else (mdI b c d, (7 * i) % 16)
  let tmp := m32 (fg.1 + a + md5K.getD i 0 + M fg.2)
  (d, m32 (b + rotl32 tmp (md5S.getD i 0)), b, c)

/-- The `j`-th little-endian 32-bit word of a 64-byte block. -/
def blockWord (blk : List ℕ) (j : ℕ) : ℕ :=
  blk.getD (4 * j) 0 + 256 * blk.getD (4 * j + 1) 0 +
    65536 * blk.getD (4 * j + 2) 0 + 16777216 * blk.getD (4 * j + 3) 0

/-- Process one 64-byte block. -/
def md5Block (st : ℕ × ℕ × ℕ × ℕ) (blk : List ℕ) : ℕ × ℕ × ℕ × ℕ :=
  let r := (List.range 64).foldl (md5Round (blockWord blk)) st
  (m32 (st.1 + r.1), m32 (st.2.1 + r.2.1), m32 (st.2.2.1 + r.2.2.1), m32 (st.2.2.2 + r.2.2.2))

/-- MD5 padding: a `0x80` byte, zeros to 56 mod 64, the bit length as eight
little-endian bytes. -/
def md5Pad (msg : List ℕ) : List ℕ :=
  let len := msg.length
  let zeros := (120 - ((len + 1) % 64)) % 64
  msg ++ [128] ++ List.replicate zeros 0 ++
    (List.range 8).map (fun i => ((len * 8) >>> (8 * i)) % 256)

/-- Split a byte list into 64-byte blocks. -/
def toBlocks (l : List ℕ) : List (List ℕ) :=
  if h : l = [] then []
  else l.take 64 :: toBlocks (l.drop 64)
termination_by l.length
decreasing_by
  simp only [List.length_drop]
  have := List.length_pos.mpr h
  omega

/-- A 32-bit word as four little-endian bytes. -/
def wordBytes (w : ℕ) : List ℕ :=
  [w % 256, (w >>> 8) % 256, (w >>> 16) % 256, (w >>> 24) % 256]

/-- The 16-byte MD5 digest of a byte string. -/
def md5Bytes (msg : List ℕ) : List ℕ :=
  let r := (toBlocks (md5Pad msg)).foldl md5Block
    (0x67452301, 0xefcdab89, 0x98badcfe, 0x10325476)
  wordBytes r.1 ++ wordBytes r.2.1 ++ wordBytes r.2.2.1 ++ wordBytes r.2.2.2

/-- Lower-case hex alphabet. -/
def hexDigits : List Char := "0123456789abcdef".data

def hexChar (n : ℕ) : Char := hexDigits.getD (n % 16) '0'

/-- One byte as two hex characters. -/
def byteHex (b : ℕ) : List Char := [hexChar (b / 16), hexChar (b % 16)]

/-- `hashlib.md5(x).hexdigest()`. -/
def md5Hex (msg : List ℕ) : String := String.mk ((md5Bytes msg).bind byteHex)

/-- UTF-8 encoding of one code point. -/
def utf8EncodeChar (c : ℕ) : List ℕ :=
  if c < 128 then [c]
  else if c < 2048 then [192 ||| (c >>> 6), 128 ||| (c &&& 63)]
  else if c < 65536 then
    [224 ||| (c >>> 12), 128 ||| ((c >>> 6) &&& 63), 128 ||| (c &&& 63)]
  else
    [240 ||| (c >>> 18), 128 ||| ((c >>> 12) &&& 63),
     128 ||| ((c >>> 6) &&& 63), 128 ||| (c &&& 63)]

/-- Python `s.encode('utf-8')`. -/
def strBytes (s : String) : List ℕ := s.data.bind (fun c => utf8EncodeChar c.toNat)

/-- `generate_cache_key`: md5 hex digest of `normalized|language|location`. -/
def generate_cache_key (query : String) (language : String) (location : String) : String :=
  let normalized := pyStrip (pyLower query)
  let composite := normalized ++ "|" ++ language ++ "|" ++ location
  md5Hex (strBytes composite)

/-! ## Erasing the recorded custom TTL (for claim C10)

`scrubState` forgets the `ttl` field recorded in each entry's metadata —
the one field `ResponseCache.get` never reads. -/

def scrubMeta (m : Metadata) : Metadata := { m with ttl := 0 }

def scrubEntry (e : CacheEntry) : CacheEntry := { e with metadata := scrubMeta e.metadata }

def scrubPair (p : String × CacheEntry) : String × CacheEntry := (p.1, scrubEntry p.2)

def scrubCache (l : List (String × CacheEntry)) : List (String × CacheEntry) :=
  l.map scrubPair

def scrubState (st : CacheState) : CacheState :=
  { cache := scrubCache st.cache, stats := st.stats }

/-! ## Bulk-insertion scenario (for claim C3) -/

/-- A sequence of `set` calls: the `m`-th call stores key `key m`, response
`resp m`, under context `ctxs m`, all with one intent. -/
structure InsertScript where
  key : ℕ → String
  resp : ℕ → String
  ctxs : ℕ → Ctx
  intent : String

/-- The entry the `m`-th `set` call of the script stores. -/
def scEntry (sc : InsertScript) (m : ℕ) : CacheEntry :=
  { response := sc.resp m
    timestamp := (sc.ctxs m).now
    metadata := setMetadata (sc.ctxs m) "" sc.intent none noOverride }

/-- The `m`-th key/entry pair of the script. -/
def scPair (sc : InsertScript) (m : ℕ) : String × CacheEntry := (sc.key m, scEntry sc m)

/-- The cache state after the first `m` `set` calls of the script. -/
def insertSeq (sc : InsertScript) : ℕ → CacheState
  | 0 => initialCacheState
  | m + 1 =>
    ResponseCache.set (insertSeq sc m) (sc.ctxs m) (sc.key m) (sc.resp m) "" sc.intent
      none noOverride

/-- The cache contents predicted after `m` script inserts: all `m` entries in
insertion order while within the bound, afterwards the 100 newest in
descending-timestamp order (the order `_cleanup_if_needed` leaves behind). -/
def expectedCache (sc : InsertScript) (m : ℕ) : List (String × CacheEntry) :=
  if m ≤ 100 then (List.range m).map (scPair sc)
  else (List.range 100).map (fun j => scPair sc (m - 1 - j))

/-! # Theorems -/

/-! ## Association-list helper lemmas -/

theorem alistLookup_mem {β : Type} {l : List (String × β)} {k : String} {v : β}
    (h : alistLookup l k = some v) : (k, v) ∈ l := by
  induction l with
  | nil => simp [alistLookup] at h
  | cons p l ih =>
    by_cases hp : p.1 = k
    · simp only [alistLookup, hp, if_pos] at h
      obtain ⟨k', v'⟩ := p
      obtain rfl : v' = v := Option.some.inj h
      obtain rfl : k' = k := hp
      exact List.mem_cons_self _ _
    · simp only [alistLookup, hp, if_neg, if_false] at h
      exact List.mem_cons_of_mem _ (ih h)

theorem alistLookup_eq_none {β : Type} {l : List (String × β)} {k : String}
    (h : ∀ p ∈ l, p.1 ≠ k) : alistLookup l k = none := by
  induction l with
  | nil => rfl
  | cons p l ih =>
    have hp := h p (List.mem_cons_self _ _)
    simp only [alistLookup, hp, if_neg, if_false]
    exact ih (fun q hq => h q (List.mem_cons_of_mem _ hq))

theorem pyLower_empty : pyLower "" = "" := rfl

theorem pyLower_eq_empty_iff (s : String) : pyLower s = "" ↔ s = "" := by
  constructor
  · intro h
    have h2 : s.data.map Char.toLower = ([] : List Char) := congrArg String.data h
    have h3 : s.data = [] := List.map_eq_nil.mp h2
    exact String.ext (by simp [h3])
  · intro h
    subst h
    rfl

/-- Python `int()` of an integer-valued rational is that integer. -/
theorem pyInt_intCast (z : ℤ) : pyInt (z : ℚ) = z := by
  simp [pyInt]

/-! ## Claim C6: the smart TTL policy -/

/-- Claim C6: for every category string the TTL is nonnegative, the lookup is
case-insensitive (it depends only on the lower-cased string), an unknown
category falls back to the default of 600 seconds, and `should_cache` holds
exactly when the TTL is positive. -/
theorem smartTTL_spec :
    (∀ s, 0 ≤ SmartTTL.get_ttl s) ∧
    (∀ s₁ s₂, pyLower s₁ = pyLower s₂ → SmartTTL.get_ttl s₁ = SmartTTL.get_ttl s₂) ∧
    (∀ s, pyLower s ∉ SmartTTL.RULES.map Prod.fst → SmartTTL.get_ttl s = 600) ∧
    (∀ s, SmartTTL.should_cache s = true ↔ 0 < SmartTTL.get_ttl s) := by
  refine ⟨?_, ?_, ?_, ?_⟩
  · intro s
    have hvals : ∀ p ∈ SmartTTL.RULES, (0:ℤ) ≤ p.2 := by decide
    simp only [SmartTTL.get_ttl]
    cases h : alistLookup SmartTTL.RULES (if s = "" then "default" else pyLower s) with
    | none => simp only [h, Option.getD_none]; decide
    | some v => simpa [h] using hvals _ (alistLookup_mem h)
  · intro s₁ s₂ h
    by_cases h1 : s₁ = ""
    · have h2 : s₂ = "" := (pyLower_eq_empty_iff s₂).mp (by rw [← h, h1, pyLower_empty])
      rw [h1, h2]
    · have h2 : s₂ ≠ "" := by
        intro he
        apply h1
        apply (pyLower_eq_empty_iff s₁).mp
        rw [h, he, pyLower_empty]
      simp only [SmartTTL.get_ttl, h1, h2, if_neg, if_false, h]
  · intro s hs
    by_cases h1 : s = ""
    · subst h1; decide
    · have h2 : alistLookup SmartTTL.RULES (pyLower s) = none :=
        alistLookup_eq_none (fun p hp he => hs (he ▸ List.mem_map_of_mem Prod.fst hp))
      simp only [SmartTTL.get_ttl, h1, if_neg, if_false, h2, Option.getD_none]
      decide
  · intro s
    simp [SmartTTL.should_cache]

/-- Concrete instances of the four parts of `smartTTL_spec`. -/
theorem smartTTL_spec_witness :
    (0 ≤ SmartTTL.get_ttl "weather") ∧
    SmartTTL.get_ttl "MONUMENTS" = SmartTTL.get_ttl "monuments" ∧
    SmartTTL.get_ttl "horoscope" = 600 ∧
    (SmartTTL.should_cache "deals" = true ↔ 0 < SmartTTL.get_ttl "deals") :=
  ⟨smartTTL_spec.1 "weather",
   smartTTL_spec.2.1 "MONUMENTS" "monuments" (by decide),
   smartTTL_spec.2.2.1 "horoscope" (by decide),
   smartTTL_spec.2.2.2 "deals"⟩

/-! ## Claim C7: the peak-hour traffic rule -/

/-- Claim C7: for a "traffic" entry (when the location-drift rule is not in
play), `should_invalidate` fires exactly when the current hour lies in the
8-10 morning or 17-20 evening peak window and the entry is more than five
minutes (300 seconds) old; outside those hours it never fires. -/
theorem traffic_peak_hour_rule (m : Metadata) (age : ℚ) (ctx : Ctx)
    (hIntent : m.intent = "traffic")
    (hArea : ctx.currentArea = "" ∨ m.area = ctx.currentArea) :
    (CacheInvalidator.should_invalidate m (age / 3600) (age / 60) ctx = true ↔
      (((8 ≤ ctx.currentHour ∧ ctx.currentHour ≤ 10) ∨
        (17 ≤ ctx.currentHour ∧ ctx.currentHour ≤ 20)) ∧ 300 < age)) := by
  have h60 : ((5:ℚ) < age / 60) ↔ 300 < age := by
    rw [lt_div_iff (by norm_num : (0:ℚ) < 60)]
    norm_num
  rcases hArea with hA | hA
  · simp [CacheInvalidator.should_invalidate, hIntent, hA, h60]
  · simp [CacheInvalidator.should_invalidate, hIntent, hA, h60]

/-- `traffic_peak_hour_rule` at a concrete peak-hour input. -/
theorem traffic_peak_hour_rule_witness :
    CacheInvalidator.should_invalidate ⟨"2026-01-01", "", "traffic", "q", 600⟩
      ((301:ℚ) / 3600) ((301:ℚ) / 60) ⟨400, "2026-01-01", "", 9⟩ = true :=
  (traffic_peak_hour_rule ⟨"2026-01-01", "", "traffic", "q", 600⟩ 301
      ⟨400, "2026-01-01", "", 9⟩ rfl (Or.inl rfl)).mpr
    (by norm_num)

/-! ## Claim C9: `set` is a no-op for uncacheable categories -/

/-- Claim C9: when `should_cache(intent)` is false (TTL = 0), `set` returns
the state unchanged: no entry is created and the store and statistics are
untouched. -/
theorem set_noop_of_uncacheable (st : CacheState) (ctx : Ctx)
    (k v q intent : String) (ttl : Option ℤ) (ov : MetaOverride)
    (h : SmartTTL.should_cache intent = false) :
    ResponseCache.set st ctx k v q intent ttl ov = st := by
  simp [ResponseCache.set, h]

/-- `set_noop_of_uncacheable` on the "deals" category at a concrete state. -/
theorem set_noop_of_uncacheable_witness :
    ResponseCache.set initialCacheState ⟨0, "2026-01-01", "", 12⟩
      "k" "v" "q" "deals" none noOverride = initialCacheState :=
  set_noop_of_uncacheable initialCacheState ⟨0, "2026-01-01", "", 12⟩
    "k" "v" "q" "deals" none noOverride (by decide)

/-! ## Claim C4: `get_retry_after` -/

/-- Claim C4: `get_retry_after` is never negative, returns 0 for an identity
with no recorded requests, and otherwise returns
`max 0 (int(oldest + window_seconds - now))`; at integer-valued times this is
exactly `max 0 (oldest + window_seconds - now)`. -/
theorem retry_after_spec (rl : RateLimiter) (st : RLState) (uid : String) (now : ℚ) :
    0 ≤ rl.get_retry_after st uid now ∧
    (alistLookup st uid = none → rl.get_retry_after st uid now = 0) ∧
    (∀ ts, alistLookup st uid = some ts → ts ≠ [] →
      rl.get_retry_after st uid now =
        max 0 (pyInt (minD ts + (rl.window_seconds : ℚ) - now))) ∧
    (∀ ts (o n : ℤ), alistLookup st uid = some ts → ts ≠ [] →
      minD ts = (o : ℚ) → now = (n : ℚ) →
      rl.get_retry_after st uid now = max 0 (o + (rl.window_seconds : ℤ) - n)) := by
  refine ⟨?_, ?_, ?_, ?_⟩
  · unfold RateLimiter.get_retry_after
    cases h : alistLookup st uid with
    | none => simp
    | some ts =>
      by_cases hts : ts = [] <;> simp [hts, le_max_left]
  · intro h
    simp [RateLimiter.get_retry_after, h]
  · intro ts h hne
    simp [RateLimiter.get_retry_after, h, hne]
  · intro ts o n h hne hmin hnow
    have hcast : (minD ts + (rl.window_seconds : ℚ) - now) =
        ((o + (rl.window_seconds : ℤ) - n : ℤ) : ℚ) := by
      rw [hmin, hnow]
      push_cast
      ring
    simp only [RateLimiter.get_retry_after, h, if_neg hne]
    rw [hcast, pyInt_intCast]

/-- `retry_after_spec` at concrete states: never negative at one state,
zero with no recorded requests, and the formula at `[(u, [3, 1])]`. -/
theorem retry_after_spec_witness :
    RateLimiter.get_retry_after ⟨2, 10⟩ [] "u" 5 = 0 ∧
    RateLimiter.get_retry_after ⟨2, 10⟩ [("u", [3, 1])] "u" 5 =
      max 0 (pyInt (minD [3, 1] + ((10:ℕ) : ℚ) - 5)) ∧
    RateLimiter.get_retry_after ⟨2, 10⟩ [("u", [3, 1])] "u" 5 = max 0 (1 + (10:ℤ) - 5) ∧
    0 ≤ RateLimiter.get_retry_after ⟨2, 10⟩ [("u", [3, 1])] "u" 5 :=
  ⟨(retry_after_spec ⟨2, 10⟩ [] "u" 5).2.1 rfl,
   (retry_after_spec ⟨2, 10⟩ [("u", [3, 1])] "u" 5).2.2.1 [3, 1] (by decide) (by decide),
   (retry_after_spec ⟨2, 10⟩ [("u", [3, 1])] "u" 5).2.2.2 [3, 1] 1 5 (by decide) (by decide)
     (by norm_num [minD]) (by norm_num),
   (retry_after_spec ⟨2, 10⟩ [("u", [3, 1])] "u" 5).1⟩

/-! ## Claim C1: the window boundary of the rate limiter -/

/-- Evaluating one `is_allowed` call on the predicted state: within the
window, the `k`-th call (`k < N`) is allowed and appends its time; the call
at `k = N` is rejected and leaves the state unchanged. -/
theorem is_allowed_expected (rl : RateLimiter) (uid : String) (t : ℕ → ℚ) (N : ℕ)
    (hmono : ∀ i j, i ≤ j → j ≤ N → t i ≤ t j)
    (hwin : t N - t 0 < (rl.window_seconds : ℚ))
    (hN : rl.max_requests = N) (k : ℕ) (hk : k ≤ N) :
    rl.is_allowed (rlExpected uid t k) uid (t k) =
      if k < N then (true, rlExpected uid t (k + 1)) else (false, rlExpected uid t k) := by
  cases k with
  | zero =>
    by_cases h0 : 0 < N
    · have hpos : ¬ (rl.max_requests ≤ 0) := by omega
      rw [if_pos h0]
      simp [RateLimiter.is_allowed, RateLimiter.cleanup_old_requests, alistLookup,
        alistSet, hpos, rlExpected, List.range_succ]
    · have hN0 : N = 0 := by omega
      rw [if_neg h0]
      simp [RateLimiter.is_allowed, RateLimiter.cleanup_old_requests, alistLookup,
        rlExpected, hN, hN0]
  | succ k =>
    have hkeep : ((List.range (k + 1)).map t).filter
        (fun r => decide (t (k + 1) - (rl.window_seconds : ℚ) < r)) =
        (List.range (k + 1)).map t := by
      apply List.filter_eq_self.mpr
      intro x hx
      obtain ⟨i, hi, rfl⟩ := List.mem_map.mp hx
      have hik : i < k + 1 := List.mem_range.mp hi
      have h1 : t (k + 1) ≤ t N := hmono (k + 1) N hk (le_refl N)
      have h3 : t 0 ≤ t i := hmono 0 i (Nat.zero_le i) (by omega)
      simp only [decide_eq_true_eq]
      linarith
    have hLne : (List.range (k + 1)).map t ≠ [] := by simp
    have hclean : rl.cleanup_old_requests (rlExpected uid t (k + 1)) uid (t (k + 1)) =
        rlExpected uid t (k + 1) := by
      simp [RateLimiter.cleanup_old_requests, rlExpected, alistLookup, hkeep, hLne, alistSet]
    have hcount : ((alistLookup (rlExpected uid t (k + 1)) uid).getD []).length = k + 1 := by
      simp [rlExpected, alistLookup]
    by_cases hkN : k + 1 < N
    · have hlt : ¬ (rl.max_requests ≤ k + 1) := by omega
      rw [if_pos hkN]
      simp only [RateLimiter.is_allowed, hclean, hcount, hlt, if_neg, if_false]
      refine Prod.ext rfl ?_
      simp [rlExpected, alistLookup, alistSet, List.range_succ]
    · have hge : rl.max_requests ≤ k + 1 := by omega
      rw [if_neg hkN]
      simp only [RateLimiter.is_allowed, hclean, hcount, hge, if_pos, if_true]

/-- The iterated state equals the predicted state while within the window. -/
theorem rlIter_eq (rl : RateLimiter) (uid : String) (t : ℕ → ℚ) (N : ℕ)
    (hmono : ∀ i j, i ≤ j → j ≤ N → t i ≤ t j)
    (hwin : t N - t 0 < (rl.window_seconds : ℚ))
    (hN : rl.max_requests = N) :
    ∀ k, k ≤ N → rlIter rl uid t k = rlExpected uid t k := by
  intro k
  induction k with
  | zero => intro _; rfl
  | succ k ih =>
    intro hk1
    have hk : k ≤ N := by omega
    have hkN : k < N := by omega
    rw [rlIter, ih hk, is_allowed_expected rl uid t N hmono hwin hN k hk, if_pos hkN]

/-- Claim C1: with `max_requests = N` and a window of `window_seconds`, an
identity starting from no recorded state has its first `N` `is_allowed`
calls allowed and the `(N+1)`-th call (all within one window: nondecreasing
call times spanning less than the window) rejected. -/
theorem rate_limit_window_boundary (rl : RateLimiter) (uid : String) (t : ℕ → ℚ) (N : ℕ)
    (hmono : ∀ i j, i ≤ j → j ≤ N → t i ≤ t j)
    (hwin : t N - t 0 < (rl.window_seconds : ℚ))
    (hN : rl.max_requests = N) :
    (∀ k, k < N → (rl.is_allowed (rlIter rl uid t k) uid (t k)).1 = true) ∧
    (rl.is_allowed (rlIter rl uid t N) uid (t N)).1 = false := by
  constructor
  · intro k hk
    rw [rlIter_eq rl uid t N hmono hwin hN k (le_of_lt hk),
      is_allowed_expected rl uid t N hmono hwin hN k (le_of_lt hk), if_pos hk]
  · rw [rlIter_eq rl uid t N hmono hwin hN N (le_refl N),
      is_allowed_expected rl uid t N hmono hwin hN N (le_refl N), if_neg (lt_irrefl N)]

/-- `rate_limit_window_boundary` with `N = 2`, `W = 10`: two allowed calls,
then a rejection. -/
theorem rate_limit_window_boundary_witness :
    ((RateLimiter.is_allowed ⟨2, 10⟩ (rlIter ⟨2, 10⟩ "user-1" (fun _ => 0) 0)
        "user-1" 0).1 = true) ∧
    ((RateLimiter.is_allowed ⟨2, 10⟩ (rlIter ⟨2, 10⟩ "user-1" (fun _ => 0) 1)
        "user-1" 0).1 = true) ∧
    ((RateLimiter.is_allowed ⟨2, 10⟩ (rlIter ⟨2, 10⟩ "user-1" (fun _ => 0) 2)
        "user-1" 0).1 = false) := by
  have T := rate_limit_window_boundary ⟨2, 10⟩ "user-1" (fun _ => (0 : ℚ)) 2
    (fun i j h1 h2 => le_refl 0) (by norm_num) rfl
  exact ⟨T.1 0 (by norm_num), T.1 1 (by norm_num), T.2⟩

/-! ## More association-list lemmas (for the cache store) -/

theorem alistLookup_map_replace {β : Type} (l : List (String × β)) (k : String) (v : β) :
    alistLookup (l.map (fun p => if p.1 = k then (k, v) else p)) k =
      (alistLookup l k).map (fun _ => v) := by
  induction l with
  | nil => rfl
  | cons p l ih =>
    by_cases hp : p.1 = k
    · simp [alistLookup, hp]
    · simp [alistLookup, hp, ih]

theorem alistLookup_append_single {β : Type} (l : List (String × β)) (k : String) (v : β)
    (h : alistLookup l k = none) : alistLookup (l ++ [(k, v)]) k = some v := by
  induction l with
  | nil => simp [alistLookup]
  | cons p l ih =>
    by_cases hp : p.1 = k
    · simp [alistLookup, hp] at h
    · simp only [alistLookup, hp, if_neg, if_false, List.cons_append] at h ⊢
      exact ih h

theorem alistLookup_alistSet_self {β : Type} (l : List (String × β)) (k : String) (v : β) :
    alistLookup (alistSet l k v) k = some v := by
  unfold alistSet
  cases h : alistLookup l k with
  | none =>
    rw [if_neg (by simp [h])]
    exact alistLookup_append_single l k v h
  | some w =>
    rw [if_pos (by simp [h]), alistLookup_map_replace, h]
    rfl

theorem alistLookup_none_forall {β : Type} {l : List (String × β)} {k : String}
    (h : alistLookup l k = none) : ∀ p ∈ l, p.1 ≠ k := by
  induction l with
  | nil => intro p hp; simp at hp
  | cons p l ih =>
    intro q hq
    by_cases hp : p.1 = k
    · simp [alistLookup, hp] at h
    · simp only [alistLookup, hp, if_neg, if_false] at h
      rcases List.mem_cons.mp hq with rfl | hq'
      · exact hp
      · exact ih h q hq'

theorem mem_alistSet_self {β : Type} (l : List (String × β)) (k : String) (v : β) :
    (k, v) ∈ alistSet l k v := by
  unfold alistSet
  cases h : alistLookup l k with
  | none => simp
  | some w =>
    rw [if_pos (by simp [h])]
    refine List.mem_map.mpr ⟨(k, w), alistLookup_mem h, ?_⟩
    simp

theorem mem_alistSet_elim {β : Type} {l : List (String × β)} {k : String} {v : β}
    {y : String × β} (hy : y ∈ alistSet l k v) :
    y = (k, v) ∨ (y ∈ l ∧ y.1 ≠ k) := by
  unfold alistSet at hy
  cases h : alistLookup l k with
  | none =>
    rw [if_neg (by simp [h])] at hy
    rcases List.mem_append.mp hy with h1 | h1
    · exact Or.inr ⟨h1, alistLookup_none_forall h y h1⟩
    · left; simpa using h1
  | some w =>
    rw [if_pos (by simp [h])] at hy
    obtain ⟨p, hp, he⟩ := List.mem_map.mp hy
    by_cases hpk : p.1 = k
    · left; rw [← he]; simp [hpk]
    · right
      constructor
      · rw [← he]; simpa [hpk] using hp
      · rw [← he]; simpa [hpk] using hpk

theorem alistLookup_unique {β : Type} {l : List (String × β)} {k : String} {v : β}
    (hx : (k, v) ∈ l) (hk : ∀ y ∈ l, y.1 = k → y = (k, v)) :
    alistLookup l k = some v := by
  induction l with
  | nil => simp at hx
  | cons p l ih =>
    by_cases hp : p.1 = k
    · have hpe : p = (k, v) := hk p (List.mem_cons_self _ _) hp
      rw [hpe]
      simp [alistLookup]
    · have hx' : (k, v) ∈ l := by
        rcases List.mem_cons.mp hx with he | hx'
        · exact absurd (congrArg Prod.fst he.symm) hp
        · exact hx'
      simp only [alistLookup, hp, if_neg, if_false]
      exact ih hx' (fun y hy => hk y (List.mem_cons_of_mem _ hy))

theorem alistLookup_erase_self {β : Type} (l : List (String × β)) (k : String) :
    alistLookup (alistErase l k) k = none := by
  induction l with
  | nil => rfl
  | cons p l ih =>
    by_cases hp : p.1 = k
    · simpa [alistErase, hp] using ih
    · simpa [alistErase, alistLookup, hp] using ih

/-! ## The freshest entry survives `_cleanup_if_needed` -/

/-- If `(k, e)` is in the list and every other element is strictly older,
the stable descending sort puts `(k, e)` first. -/
theorem sortByTsDesc_head {l : List (String × CacheEntry)} {k : String} {e : CacheEntry}
    (hx : (k, e) ∈ l)
    (hmax : ∀ y ∈ l, y = (k, e) ∨ y.2.timestamp < e.timestamp) :
    ∃ tl, sortByTsDesc l = (k, e) :: tl := by
  have hperm : List.Perm (sortByTsDesc l) l := List.perm_insertionSort tsGe l
  have hsorted : List.Sorted tsGe (sortByTsDesc l) := List.sorted_insertionSort tsGe l
  have hmem : (k, e) ∈ sortByTsDesc l := hperm.mem_iff.mpr hx
  cases hs : sortByTsDesc l with
  | nil => rw [hs] at hmem; simp at hmem
  | cons h tl =>
    rw [hs] at hmem hsorted hperm
    have hh : h ∈ l := hperm.subset (List.mem_cons_self _ _)
    rcases hmax h hh with he | hlt
    · exact ⟨tl, by rw [he]⟩
    · exfalso
      rcases List.mem_cons.mp hmem with hhe | hmem'
      · rw [← hhe] at hlt
        exact lt_irrefl _ hlt
      · have hrel : tsGe h (k, e) := (List.sorted_cons.mp hsorted).1 (k, e) hmem'
        have : e.timestamp ≤ h.2.timestamp := hrel
        linarith
  
/-- Looking up the unique freshest key after bounded cleanup still finds it. -/
theorem lookup_cleanup_of_max {L : List (String × CacheEntry)} {k : String} {e : CacheEntry}
    (hx : (k, e) ∈ L)
    (hk : ∀ y ∈ L, y.1 = k → y = (k, e))
    (hmax : ∀ y ∈ L, y = (k, e) ∨ y.2.timestamp < e.timestamp) :
    alistLookup (cleanup_if_needed 100 L) k = some e := by
  unfold cleanup_if_needed
  by_cases hlen : L.length ≤ 100
  · rw [if_pos hlen]
    exact alistLookup_unique hx hk
  · rw [if_neg hlen]
    obtain ⟨tl, htl⟩ := sortByTsDesc_head hx hmax
    rw [htl, show (100 : ℕ) = 99 + 1 from rfl, List.take_succ_cons]
    simp [alistLookup]

theorem pyInt_zero : pyInt 0 = 0 := by
  simpa using pyInt_intCast 0

/-! ## Claim C2: when a present entry is returned -/

/-- Claim C2: a `get` on a present entry returns the stored value exactly
when no smart-invalidation rule fires and the (truncated) age does not
exceed the TTL for the category; in particular a `set` under "monuments"
followed by a `get` with the same clock returns the stored value (provided
the stored metadata triggers no invalidation rule and the new entry is the
freshest write). -/
theorem cache_hit_characterization :
    (∀ (st : CacheState) (ctx : Ctx) (k q i : String) (e : CacheEntry),
      alistLookup st.cache k = some e →
      ((ResponseCache.get st ctx k q i).1 = some e.response ↔
        (CacheInvalidator.should_invalidate e.metadata ((ctx.now - e.timestamp) / 3600)
            ((ctx.now - e.timestamp) / 60) ctx = false ∧
          pyInt (ctx.now - e.timestamp) ≤ SmartTTL.get_ttl (pyOrStr i e.metadata.intent)))) ∧
    (∀ (st : CacheState) (ctx : Ctx) (k v q : String) (ov : MetaOverride),
      (∀ p ∈ st.cache, p.2.timestamp < ctx.now) →
      CacheInvalidator.should_invalidate (setMetadata ctx q "monuments" none ov) 0 0 ctx =
        false →
      (ResponseCache.get (ResponseCache.set st ctx k v q "monuments" none ov) ctx
          k q "monuments").1 = some v) := by
  constructor
  · intro st ctx k q i e h
    by_cases hinv : CacheInvalidator.should_invalidate e.metadata
        ((ctx.now - e.timestamp) / 3600) ((ctx.now - e.timestamp) / 60) ctx
    · simp [ResponseCache.get, h, hinv]
    · by_cases hexp : SmartTTL.get_ttl (pyOrStr i e.metadata.intent) <
          pyInt (ctx.now - e.timestamp)
      · simp [ResponseCache.get, h, hinv, hexp] <;> omega
      · simp [ResponseCache.get, h, hinv, hexp] <;> omega
  · intro st ctx k v q ov hts hinv
    have hsc : SmartTTL.should_cache "monuments" = true := by decide
    have httl : SmartTTL.get_ttl "monuments" = 86400 := by decide
    simp only [ResponseCache.set, hsc, if_true]
    have hx : (k, (⟨v, ctx.now, setMetadata ctx q "monuments" none ov⟩ : CacheEntry)) ∈
        alistSet st.cache k ⟨v, ctx.now, setMetadata ctx q "monuments" none ov⟩ :=
      mem_alistSet_self _ _ _
    have hkuniq : ∀ y ∈ alistSet st.cache k
        (⟨v, ctx.now, setMetadata ctx q "monuments" none ov⟩ : CacheEntry),
        y.1 = k → y = (k, ⟨v, ctx.now, setMetadata ctx q "monuments" none ov⟩) := by
      intro y hy hyk
      rcases mem_alistSet_elim hy with he | ⟨_, hne⟩
      · exact he
      · exact absurd hyk hne
    have hmax : ∀ y ∈ alistSet st.cache k
        (⟨v, ctx.now, setMetadata ctx q "monuments" none ov⟩ : CacheEntry),
        y = (k, ⟨v, ctx.now, setMetadata ctx q "monuments" none ov⟩) ∨
          y.2.timestamp < (⟨v, ctx.now, setMetadata ctx q "monuments" none ov⟩ :
            CacheEntry).timestamp := by
      intro y hy
      rcases mem_alistSet_elim hy with he | ⟨hmem, _⟩
      · exact Or.inl he
      · exact Or.inr (hts y hmem)
    have hlook := lookup_cleanup_of_max hx hkuniq hmax
    simp only [ResponseCache.get, hlook]
    simp [sub_self, zero_div, hinv, pyOrStr, httl, pyInt_zero]

/-- `cache_hit_characterization` at a concrete state: a fresh "monuments"
round trip returns the stored value. -/
theorem cache_hit_characterization_witness :
    (ResponseCache.get (ResponseCache.set initialCacheState ⟨0, "2026-01-01", "", 12⟩
        "k" "v" "q" "monuments" none noOverride) ⟨0, "2026-01-01", "", 12⟩
        "k" "q" "monuments").1 = some "v" :=
  cache_hit_characterization.2 initialCacheState ⟨0, "2026-01-01", "", 12⟩ "k" "v" "q"
    noOverride (by intro p hp; simp [initialCacheState] at hp)
    (by simp [CacheInvalidator.should_invalidate, setMetadata, applyOverride, noOverride])

/-! ## Claim C5: `get` side effects on stale and live entries -/

/-- Claim C5: on a present entry, a `get` that is rejected by an
invalidation rule or by TTL expiry returns `none`, eagerly deletes the
entry, and bumps the miss counter but not the hit counter; a usable hit
returns the stored value, leaves the store unchanged, and bumps the hit
counter but not the miss counter. -/
theorem get_side_effects (st : CacheState) (ctx : Ctx) (k q i : String) (e : CacheEntry)
    (hfound : alistLookup st.cache k = some e) :
    ((CacheInvalidator.should_invalidate e.metadata ((ctx.now - e.timestamp) / 3600)
        ((ctx.now - e.timestamp) / 60) ctx = true ∨
      SmartTTL.get_ttl (pyOrStr i e.metadata.intent) < pyInt (ctx.now - e.timestamp)) →
      ((ResponseCache.get st ctx k q i).1 = none ∧
       alistLookup (ResponseCache.get st ctx k q i).2.cache k = none ∧
       (ResponseCache.get st ctx k q i).2.stats.misses = st.stats.misses + 1 ∧
       (ResponseCache.get st ctx k q i).2.stats.hits = st.stats.hits)) ∧
    (CacheInvalidator.should_invalidate e.metadata ((ctx.now - e.timestamp) / 3600)
        ((ctx.now - e.timestamp) / 60) ctx = false →
     pyInt (ctx.now - e.timestamp) ≤ SmartTTL.get_ttl (pyOrStr i e.metadata.intent) →
      ((ResponseCache.get st ctx k q i).1 = some e.response ∧
       (ResponseCache.get st ctx k q i).2.cache = st.cache ∧
       (ResponseCache.get st ctx k q i).2.stats.hits = st.stats.hits + 1 ∧
       (ResponseCache.get st ctx k q i).2.stats.misses = st.stats.misses)) := by
  constructor
  · intro hstale
    rcases hstale with hinv | hexp
    · simp [ResponseCache.get, hfound, hinv, alistLookup_erase_self,
        bumpMisses, bumpInvalidations]
    · by_cases hinv : CacheInvalidator.should_invalidate e.metadata
          ((ctx.now - e.timestamp) / 3600) ((ctx.now - e.timestamp) / 60) ctx
      · simp [ResponseCache.get, hfound, hinv, alistLookup_erase_self,
          bumpMisses, bumpInvalidations]
      · simp [ResponseCache.get, hfound, hinv, hexp, alistLookup_erase_self, bumpMisses]
  · intro hinv hexp
    have hexp' : ¬ (SmartTTL.get_ttl (pyOrStr i e.metadata.intent) <
        pyInt (ctx.now - e.timestamp)) := not_lt.mpr hexp
    simp [ResponseCache.get, hfound, hinv, hexp', bumpHits]

/-- `get_side_effects` at concrete states: an expired "weather" entry is a
deleting miss; a fresh one is a hit that leaves the store unchanged. -/
theorem get_side_effects_witness :
    ((ResponseCache.get ⟨[("k", ⟨"v", 0, ⟨"2026-01-01", "", "weather", "q", 600⟩⟩)],
        ⟨3, 4, 5, 0⟩⟩ ⟨1000, "2026-01-01", "", 12⟩ "k" "q" "weather").1 = none ∧
     alistLookup (ResponseCache.get ⟨[("k", ⟨"v", 0, ⟨"2026-01-01", "", "weather", "q", 600⟩⟩)],
        ⟨3, 4, 5, 0⟩⟩ ⟨1000, "2026-01-01", "", 12⟩ "k" "q" "weather").2.cache "k" = none ∧
     (ResponseCache.get ⟨[("k", ⟨"v", 0, ⟨"2026-01-01", "", "weather", "q", 600⟩⟩)],
        ⟨3, 4, 5, 0⟩⟩ ⟨1000, "2026-01-01", "", 12⟩ "k" "q" "weather").2.stats.misses = 5 ∧
     (ResponseCache.get ⟨[("k", ⟨"v", 0, ⟨"2026-01-01", "", "weather", "q", 600⟩⟩)],
        ⟨3, 4, 5, 0⟩⟩ ⟨1000, "2026-01-01", "", 12⟩ "k" "q" "weather").2.stats.hits = 3) ∧
    ((ResponseCache.get ⟨[("k", ⟨"v", 0, ⟨"2026-01-01", "", "weather", "q", 600⟩⟩)],
        ⟨3, 4, 5, 0⟩⟩ ⟨100, "2026-01-01", "", 12⟩ "k" "q" "weather").1 = some "v" ∧
     (ResponseCache.get ⟨[("k", ⟨"v", 0, ⟨"2026-01-01", "", "weather", "q", 600⟩⟩)],
        ⟨3, 4, 5, 0⟩⟩ ⟨100, "2026-01-01", "", 12⟩ "k" "q" "weather").2.cache =
       [("k", ⟨"v", 0, ⟨"2026-01-01", "", "weather", "q", 600⟩⟩)] ∧
     (ResponseCache.get ⟨[("k", ⟨"v", 0, ⟨"2026-01-01", "", "weather", "q", 600⟩⟩)],
        ⟨3, 4, 5, 0⟩⟩ ⟨100, "2026-01-01", "", 12⟩ "k" "q" "weather").2.stats.hits = 4 ∧
     (ResponseCache.get ⟨[("k", ⟨"v", 0, ⟨"2026-01-01", "", "weather", "q", 600⟩⟩)],
        ⟨3, 4, 5, 0⟩⟩ ⟨100, "2026-01-01", "", 12⟩ "k" "q" "weather").2.stats.misses = 4) :=
  ⟨(get_side_effects ⟨[("k", ⟨"v", 0, ⟨"2026-01-01", "", "weather", "q", 600⟩⟩)], ⟨3, 4, 5, 0⟩⟩
      ⟨1000, "2026-01-01", "", 12⟩ "k" "q" "weather"
      ⟨"v", 0, ⟨"2026-01-01", "", "weather", "q", 600⟩⟩ (by decide)).1
    (Or.inr (by
      have h : SmartTTL.get_ttl (pyOrStr "weather"
          (⟨"2026-01-01", "", "weather", "q", 600⟩ : Metadata).intent) = 600 := by decide
      rw [h]
      norm_num [pyInt])),
   (get_side_effects ⟨[("k", ⟨"v", 0, ⟨"2026-01-01", "", "weather", "q", 600⟩⟩)], ⟨3, 4, 5, 0⟩⟩
      ⟨100, "2026-01-01", "", 12⟩ "k" "q" "weather"
      ⟨"v", 0, ⟨"2026-01-01", "", "weather", "q", 600⟩⟩ (by decide)).2
    (by norm_num [CacheInvalidator.should_invalidate])
    (by
      have h : SmartTTL.get_ttl (pyOrStr "weather"
          (⟨"2026-01-01", "", "weather", "q", 600⟩ : Metadata).intent) = 600 := by decide
      rw [h]
      norm_num [pyInt])⟩

/-! ## Claim C8: the cache key builder -/

theorem byteHex_length (b : ℕ) : (byteHex b).length = 2 := rfl

theorem bind_byteHex_length (l : List ℕ) : (l.bind byteHex).length = 2 * l.length := by
  induction l with
  | nil => rfl
  | cons b l ih =>
    simp only [List.cons_bind, List.length_append, byteHex_length, ih, List.length_cons]
    omega

theorem md5Bytes_length (msg : List ℕ) : (md5Bytes msg).length = 16 := by
  simp [md5Bytes, wordBytes]

theorem hexChar_mem (n : ℕ) : hexChar n ∈ hexDigits := by
  unfold hexChar
  have h : n % 16 < hexDigits.length := by
    have h1 := Nat.mod_lt n (show 0 < 16 by norm_num)
    have h2 : hexDigits.length = 16 := by decide
    omega
  rw [List.getD_eq_getElem hexDigits '0' h]
  exact List.getElem_mem h

/-- Claim C8: `generate_cache_key` is deterministic, always returns a
32-character string over the lower-case hex alphabet, and depends on the
query only through its lower-cased, whitespace-stripped normal form — so
queries differing only in letter case or surrounding whitespace share a key. -/
theorem generate_cache_key_spec :
    (∀ q l loc, generate_cache_key q l loc = generate_cache_key q l loc) ∧
    (∀ q l loc, (generate_cache_key q l loc).length = 32) ∧
    (∀ q l loc c, c ∈ (generate_cache_key q l loc).data → c ∈ hexDigits) ∧
    (∀ q₁ q₂ l loc, pyStrip (pyLower q₁) = pyStrip (pyLower q₂) →
      generate_cache_key q₁ l loc = generate_cache_key q₂ l loc) := by
  refine ⟨fun q l loc => rfl, ?_, ?_, ?_⟩
  · intro q l loc
    show (String.mk ((md5Bytes _).bind byteHex)).length = 32
    show ((md5Bytes _).bind byteHex).length = 32
    rw [bind_byteHex_length, md5Bytes_length]
  · intro q l loc c hc
    have hc' : c ∈ (md5Bytes (strBytes (pyStrip (pyLower q) ++ "|" ++ l ++ "|" ++ loc))).bind
        byteHex := hc
    obtain ⟨b, _, hcb⟩ := List.mem_bind.mp hc'
    rcases List.mem_cons.mp hcb with rfl | hcb'
    · exact hexChar_mem _
    · rcases List.mem_cons.mp hcb' with rfl | h
      · exact hexChar_mem _
      · simp at h
  · intro q₁ q₂ l loc h
    unfold generate_cache_key
    rw [h]

/-- `generate_cache_key_spec` at concrete inputs: case and surrounding
whitespace in the query do not change the key, and the key has 32 hex
characters. -/
theorem generate_cache_key_spec_witness :
    generate_cache_key "  HELLO World " "en" "Hyderabad" =
      generate_cache_key "hello world" "en" "Hyderabad" ∧
    (generate_cache_key "hello world" "en" "Hyderabad").length = 32 :=
  ⟨generate_cache_key_spec.2.2.2 "  HELLO World " "hello world" "en" "Hyderabad" (by decide),
   generate_cache_key_spec.2.1 "hello world" "en" "Hyderabad"⟩

/-! ## Claim C10: the recorded custom TTL is never consulted -/

theorem alistLookup_scrubCache (l : List (String × CacheEntry)) (k : String) :
    alistLookup (scrubCache l) k = (alistLookup l k).map scrubEntry := by
  induction l with
  | nil => rfl
  | cons p l ih =>
    by_cases hp : p.1 = k
    · simp [scrubCache, scrubPair, alistLookup, hp]
    · simp only [scrubCache, List.map_cons] at ih ⊢
      simp [alistLookup, scrubPair, hp, ih]

theorem alistErase_scrubCache (l : List (String × CacheEntry)) (k : String) :
    alistErase (scrubCache l) k = scrubCache (alistErase l k) := by
  induction l with
  | nil => rfl
  | cons p l ih =>
    by_cases hp : p.1 = k
    · simpa [scrubCache, alistErase, scrubPair, hp] using ih
    · simpa [scrubCache, alistErase, scrubPair, hp] using ih

theorem scrub_map_replace (l : List (String × CacheEntry)) (k : String) (e : CacheEntry) :
    (scrubCache l).map (fun p => if p.1 = k then (k, scrubEntry e) else p) =
      scrubCache (l.map (fun p => if p.1 = k then (k, e) else p)) := by
  induction l with
  | nil => rfl
  | cons p l ih =>
    simp only [scrubCache, List.map_cons] at ih ⊢
    rw [ih]
    congr 1
    by_cases hp : p.1 = k <;> simp [scrubPair, hp]

theorem alistSet_scrubCache (l : List (String × CacheEntry)) (k : String) (e : CacheEntry) :
    alistSet (scrubCache l) k (scrubEntry e) = scrubCache (alistSet l k e) := by
  unfold alistSet
  rw [alistLookup_scrubCache]
  cases h : alistLookup l k with
  | none => simp [scrubCache, scrubPair]
  | some w =>
    simp only [Option.map_some', Option.isSome_some, if_pos]
    exact scrub_map_replace l k e

theorem tsGe_scrub (a b : String × CacheEntry) :
    tsGe (scrubPair a) (scrubPair b) ↔ tsGe a b := Iff.rfl

theorem scrubEntry_response (e : CacheEntry) : (scrubEntry e).response = e.response := rfl

theorem orderedInsert_scrub (x : String × CacheEntry) (l : List (String × CacheEntry)) :
    List.orderedInsert tsGe (scrubPair x) (scrubCache l) =
      scrubCache (List.orderedInsert tsGe x l) := by
  induction l with
  | nil => rfl
  | cons p l ih =>
    by_cases h : tsGe x p
    · have h' : tsGe (scrubPair x) (scrubPair p) := h
      simp [scrubCache, List.orderedInsert, h, h']
    · have h' : ¬ tsGe (scrubPair x) (scrubPair p) := h
      simp only [scrubCache, List.map_cons] at ih ⊢
      simp [List.orderedInsert, h, h', ih]

theorem sortByTsDesc_scrub (l : List (String × CacheEntry)) :
    sortByTsDesc (scrubCache l) = scrubCache (sortByTsDesc l) := by
  unfold sortByTsDesc
  induction l with
  | nil => rfl
  | cons p l ih =>
    simp only [scrubCache, List.map_cons, List.insertionSort] at ih ⊢
    rw [ih]
    exact orderedInsert_scrub p (l.insertionSort tsGe)

theorem cleanup_scrub (n : ℕ) (l : List (String × CacheEntry)) :
    cleanup_if_needed n (scrubCache l) = scrubCache (cleanup_if_needed n l) := by
  unfold cleanup_if_needed
  have hlen : (scrubCache l).length = l.length := List.length_map _ _
  by_cases h : l.length ≤ n
  · rw [if_pos (by omega), if_pos h]
  · rw [if_neg (by omega), if_neg h, sortByTsDesc_scrub]
    simp [scrubCache, List.map_take]

/-- Scrubbing commutes with `set`, and the result does not depend on the
custom `ttl` argument. -/
theorem scrubState_set_ttl (st : CacheState) (ctx : Ctx) (k v q i : String)
    (t₁ t₂ : Option ℤ) (ov : MetaOverride) :
    scrubState (ResponseCache.set st ctx k v q i t₁ ov) =
      scrubState (ResponseCache.set st ctx k v q i t₂ ov) := by
  unfold ResponseCache.set
  by_cases h : SmartTTL.should_cache i
  · simp only [h, if_pos, if_true]
    unfold scrubState
    simp only [CacheState.mk.injEq, and_true]
    have he : scrubEntry ⟨v, ctx.now, setMetadata ctx q i t₁ ov⟩ =
        scrubEntry ⟨v, ctx.now, setMetadata ctx q i t₂ ov⟩ := by
      simp [scrubEntry, scrubMeta, setMetadata, applyOverride]
    calc scrubCache (cleanup_if_needed 100
          (alistSet st.cache k ⟨v, ctx.now, setMetadata ctx q i t₁ ov⟩))
        = cleanup_if_needed 100 (scrubCache
            (alistSet st.cache k ⟨v, ctx.now, setMetadata ctx q i t₁ ov⟩)) :=
          (cleanup_scrub _ _).symm
      _ = cleanup_if_needed 100 (alistSet (scrubCache st.cache) k
            (scrubEntry ⟨v, ctx.now, setMetadata ctx q i t₁ ov⟩)) := by
          rw [alistSet_scrubCache]
      _ = cleanup_if_needed 100 (alistSet (scrubCache st.cache) k
            (scrubEntry ⟨v, ctx.now, setMetadata ctx q i t₂ ov⟩)) := by rw [he]
      _ = cleanup_if_needed 100 (scrubCache
            (alistSet st.cache k ⟨v, ctx.now, setMetadata ctx q i t₂ ov⟩)) := by
          rw [alistSet_scrubCache]
      _ = scrubCache (cleanup_if_needed 100
            (alistSet st.cache k ⟨v, ctx.now, setMetadata ctx q i t₂ ov⟩)) :=
          cleanup_scrub _ _
  · simp [h]

/-- `get` cannot distinguish a state from its scrubbed version: same
returned value, and the resulting states agree after scrubbing. -/
theorem get_scrub (st : CacheState) (ctx : Ctx) (k q i : String) :
    (ResponseCache.get (scrubState st) ctx k q i).1 = (ResponseCache.get st ctx k q i).1 ∧
    (ResponseCache.get (scrubState st) ctx k q i).2 =
      scrubState (ResponseCache.get st ctx k q i).2 := by
  unfold ResponseCache.get
  have hc : (scrubState st).cache = scrubCache st.cache := rfl
  rw [hc, alistLookup_scrubCache]
  cases h : alistLookup st.cache k with
  | none => exact ⟨rfl, rfl⟩
  | some e =>
    simp only [Option.map_some']
    by_cases hi : CacheInvalidator.should_invalidate e.metadata
        ((ctx.now - e.timestamp) / 3600) ((ctx.now - e.timestamp) / 60) ctx
    · have hi' : CacheInvalidator.should_invalidate (scrubEntry e).metadata
          ((ctx.now - (scrubEntry e).timestamp) / 3600)
          ((ctx.now - (scrubEntry e).timestamp) / 60) ctx = true := hi
      constructor
      · simp [hi, hi']
      · simp [hi, hi', scrubState, alistErase_scrubCache]
    · have hi' : ¬ (CacheInvalidator.should_invalidate (scrubEntry e).metadata
          ((ctx.now - (scrubEntry e).timestamp) / 3600)
          ((ctx.now - (scrubEntry e).timestamp) / 60) ctx = true) := hi
      by_cases he : SmartTTL.get_ttl (pyOrStr i e.metadata.intent) <
          pyInt (ctx.now - e.timestamp)
      · have he' : SmartTTL.get_ttl (pyOrStr i (scrubEntry e).metadata.intent) <
            pyInt (ctx.now - (scrubEntry e).timestamp) := he
        constructor
        · simp [hi, hi', he, he']
        · simp [hi, hi', he, he', scrubState, alistErase_scrubCache]
      · have he' : ¬ (SmartTTL.get_ttl (pyOrStr i (scrubEntry e).metadata.intent) <
            pyInt (ctx.now - (scrubEntry e).timestamp)) := he
        constructor
        · simp [hi, hi', he, he', scrubEntry_response]
        · simp [hi, hi', he, he', scrubState]

/-- Claim C10: the custom `ttl` argument of `set` is recorded in metadata
only; a later `get` (with any intent argument and clock) returns the same
value, the same statistics, and the same store modulo the recorded ttl
field, whatever custom ttl was passed.  Expiry is decided solely from the
intent-based TTL table. -/
theorem custom_ttl_never_consulted (st : CacheState) (ctx gctx : Ctx)
    (k v q i gq gi : String) (t₁ t₂ : ℤ) (ov : MetaOverride) :
    (ResponseCache.get (ResponseCache.set st ctx k v q i (some t₁) ov) gctx k gq gi).1 =
      (ResponseCache.get (ResponseCache.set st ctx k v q i (some t₂) ov) gctx k gq gi).1 ∧
    (ResponseCache.get (ResponseCache.set st ctx k v q i (some t₁) ov) gctx k gq gi).2.stats =
      (ResponseCache.get (ResponseCache.set st ctx k v q i (some t₂) ov) gctx k gq gi).2.stats ∧
    scrubState (ResponseCache.get (ResponseCache.set st ctx k v q i (some t₁) ov)
        gctx k gq gi).2 =
      scrubState (ResponseCache.get (ResponseCache.set st ctx k v q i (some t₂) ov)
        gctx k gq gi).2 := by
  have hs := scrubState_set_ttl st ctx k v q i (some t₁) (some t₂) ov
  have g₁ := get_scrub (ResponseCache.set st ctx k v q i (some t₁) ov) gctx k gq gi
  have g₂ := get_scrub (ResponseCache.set st ctx k v q i (some t₂) ov) gctx k gq gi
  refine ⟨?_, ?_, ?_⟩
  · rw [← g₁.1, ← g₂.1, hs]
  · have e₁ : (ResponseCache.get (ResponseCache.set st ctx k v q i (some t₁) ov)
        gctx k gq gi).2.stats = (ResponseCache.get (scrubState (ResponseCache.set st ctx k v q i
        (some t₁) ov)) gctx k gq gi).2.stats := by rw [g₁.2]; rfl
    have e₂ : (ResponseCache.get (ResponseCache.set st ctx k v q i (some t₂) ov)
        gctx k gq gi).2.stats = (ResponseCache.get (scrubState (ResponseCache.set st ctx k v q i
        (some t₂) ov)) gctx k gq gi).2.stats := by rw [g₂.2]; rfl
    rw [e₁, e₂, hs]
  · rw [← g₁.2, ← g₂.2, hs]

/-! ## Claim C3: bounded recency eviction -/

/-- Inserting an element strictly newer than everything in the list lands at
the end. -/
theorem orderedInsert_append_of_forall (x : String × CacheEntry)
    (l : List (String × CacheEntry)) (h : ∀ y ∈ l, ¬ tsGe x y) :
    List.orderedInsert tsGe x l = l ++ [x] := by
  induction l with
  | nil => rfl
  | cons b l ih =>
    have hb : ¬ tsGe x b := h b (List.mem_cons_self _ _)
    simp only [List.orderedInsert, if_neg hb, List.cons_append]
    rw [ih (fun y hy => h y (List.mem_cons_of_mem _ hy))]

/-- Inserting an element at least as new as everything in the list lands at
the front. -/
theorem orderedInsert_cons_of_forall (x : String × CacheEntry)
    (l : List (String × CacheEntry)) (h : ∀ y ∈ l, tsGe x y) :
    List.orderedInsert tsGe x l = x :: l := by
  cases l with
  | nil => rfl
  | cons b l => simp only [List.orderedInsert, if_pos (h b (List.mem_cons_self _ _))]

/-- The stable descending sort of a strictly ascending list is its reverse. -/
theorem insertionSort_of_ascending (l : List (String × CacheEntry))
    (h : List.Pairwise (fun p q => p.2.timestamp < q.2.timestamp) l) :
    List.insertionSort tsGe l = l.reverse := by
  induction l with
  | nil => rfl
  | cons a l ih =>
    obtain ⟨h1, h2⟩ := List.pairwise_cons.mp h
    simp only [List.insertionSort, ih h2]
    rw [orderedInsert_append_of_forall a l.reverse
      (fun y hy => not_le.mpr (h1 y (List.mem_reverse.mp hy)))]
    simp

/-- The stable descending sort of a strictly descending list with one
strictly-newest element appended puts that element first. -/
theorem insertionSort_desc_append (x : String × CacheEntry) :
    ∀ l : List (String × CacheEntry),
    List.Pairwise (fun p q => q.2.timestamp < p.2.timestamp) l →
    (∀ y ∈ l, y.2.timestamp < x.2.timestamp) →
    List.insertionSort tsGe (l ++ [x]) = x :: l := by
  intro l
  induction l with
  | nil => intro _ _; rfl
  | cons a l ih =>
    intro hd hmax
    obtain ⟨ha, hl⟩ := List.pairwise_cons.mp hd
    have hax : a.2.timestamp < x.2.timestamp := hmax a (List.mem_cons_self _ _)
    rw [show (a :: l) ++ [x] = a :: (l ++ [x]) from rfl, List.insertionSort]
    rw [ih hl (fun y hy => hmax y (List.mem_cons_of_mem _ hy))]
    have hnx : ¬ tsGe a x := not_le.mpr hax
    rw [show List.orderedInsert tsGe a (x :: l) =
        if tsGe a x then a :: x :: l else x :: List.orderedInsert tsGe a l from rfl,
      if_neg hnx, orderedInsert_cons_of_forall a l (fun y hy => le_of_lt (ha y hy))]

/-- `Pairwise` over `List.range` from an ordering fact with explicit bounds. -/
theorem pairwise_range_of (n : ℕ) (S : ℕ → ℕ → Prop)
    (h : ∀ i j, i < j → j < n → S i j) : List.Pairwise S (List.range n) := by
  induction n with
  | zero => exact List.Pairwise.nil
  | succ n ih =>
    rw [List.range_succ]
    refine List.pairwise_append.mpr ⟨ih (fun i j hij hj => h i j hij (by omega)), ?_, ?_⟩
    · exact List.pairwise_singleton _ _
    · intro a ha b hb
      rw [List.mem_singleton.mp hb]
      exact h a n (List.mem_range.mp ha) (by omega)

/-- The reverse of `List.range n` written as a map. -/
theorem reverse_range_eq_map (n : ℕ) :
    (List.range n).reverse = (List.range n).map (fun i => n - 1 - i) := by
  induction n with
  | zero => rfl
  | succ n ih =>
    have hL : (List.range (n + 1)).reverse = n :: (List.range n).reverse := by
      rw [List.range_succ]
      simp
    have hR : (List.range (n + 1)).map (fun i => n + 1 - 1 - i) =
        n :: (List.range n).map (fun i => n - 1 - i) := by
      have h1 : (fun i => n + 1 - 1 - i) ∘ Nat.succ = (fun i => n - 1 - i) := by
        funext i
        simp only [Function.comp_apply]
        omega
      rw [List.range_succ_eq_map, List.map_cons, List.map_map, h1]
      congr 1
    rw [hL, hR, ih]

theorem expectedCache_le (sc : InsertScript) {m : ℕ} (h : m ≤ 100) :
    expectedCache sc m = (List.range m).map (scPair sc) := by
  unfold expectedCache
  rw [if_pos h]

theorem expectedCache_gt (sc : InsertScript) {m : ℕ} (h : ¬ m ≤ 100) :
    expectedCache sc m = (List.range 100).map (fun j => scPair sc (m - 1 - j)) := by
  unfold expectedCache
  rw [if_neg h]

theorem expectedCache_mem {sc : InsertScript} {m : ℕ} {p : String × CacheEntry}
    (hp : p ∈ expectedCache sc m) : ∃ i, i < m ∧ p = scPair sc i := by
  unfold expectedCache at hp
  by_cases h : m ≤ 100
  · rw [if_pos h] at hp
    obtain ⟨i, hi, rfl⟩ := List.mem_map.mp hp
    exact ⟨i, List.mem_range.mp hi, rfl⟩
  · rw [if_neg h] at hp
    obtain ⟨j, _, rfl⟩ := List.mem_map.mp hp
    exact ⟨m - 1 - j, by omega, rfl⟩

theorem expectedCache_fresh (sc : InsertScript)
    (hinj : ∀ i j, sc.key i = sc.key j → i = j) (m : ℕ) :
    alistLookup (expectedCache sc m) (sc.key m) = none := by
  apply alistLookup_eq_none
  intro p hp he
  obtain ⟨i, him, rfl⟩ := expectedCache_mem hp
  exact absurd (hinj i m he) (by omega)

theorem alistSet_expected (sc : InsertScript)
    (hinj : ∀ i j, sc.key i = sc.key j → i = j) (m : ℕ) :
    alistSet (expectedCache sc m) (sc.key m) (scEntry sc m) =
      expectedCache sc m ++ [scPair sc m] := by
  unfold alistSet
  rw [expectedCache_fresh sc hinj m]
  simp [scPair]

/-- The cache contents after `m` script inserts are exactly `expectedCache`. -/
theorem insertSeq_cache (sc : InsertScript)
    (hinj : ∀ i j, sc.key i = sc.key j → i = j)
    (hmono : ∀ i j, i < j → (sc.ctxs i).now < (sc.ctxs j).now)
    (hcc : SmartTTL.should_cache sc.intent = true) :
    ∀ m, (insertSeq sc m).cache = expectedCache sc m := by
  intro m
  induction m with
  | zero => rfl
  | succ m ih =>
    have hstep : insertSeq sc (m + 1) =
        { cache := cleanup_if_needed 100
            (alistSet (insertSeq sc m).cache (sc.key m) (scEntry sc m))
          stats := (insertSeq sc m).stats } := by
      show ResponseCache.set (insertSeq sc m) (sc.ctxs m) (sc.key m) (sc.resp m) ""
          sc.intent none noOverride = _
      unfold ResponseCache.set
      rw [if_pos hcc]
      rfl
    rw [hstep]
    show cleanup_if_needed 100
        (alistSet (insertSeq sc m).cache (sc.key m) (scEntry sc m)) =
      expectedCache sc (m + 1)
    rw [ih, alistSet_expected sc hinj m]
    rcases lt_trichotomy m 100 with h1 | h1 | h1
    · -- phase 1: still within the bound, pure append
      rw [expectedCache_le sc (le_of_lt h1), expectedCache_le sc (by omega : m + 1 ≤ 100),
        show (List.range m).map (scPair sc) ++ [scPair sc m] =
          (List.range (m + 1)).map (scPair sc) from by
            rw [show List.range (m + 1) = List.range m ++ [m] from List.range_succ m,
              List.map_append]
            rfl]
      unfold cleanup_if_needed
      rw [if_pos (by simp only [List.length_map, List.length_range]; omega)]
    · -- first overflow: the ascending list is sorted to its reverse
      subst h1
      rw [expectedCache_le sc (le_refl 100), expectedCache_gt sc (by omega : ¬ (101 ≤ 100)),
        show (List.range 100).map (scPair sc) ++ [scPair sc 100] =
          (List.range 101).map (scPair sc) from by
            rw [show List.range 101 = List.range 100 ++ [100] from List.range_succ 100,
              List.map_append]
            rfl]
      unfold cleanup_if_needed
      rw [if_neg (by simp only [List.length_map, List.length_range]; omega)]
      have hasc : List.Pairwise (fun p q => p.2.timestamp < q.2.timestamp)
          ((List.range 101).map (scPair sc)) := by
        rw [List.pairwise_map]
        exact pairwise_range_of 101 _ (fun i j hij _ => hmono i j hij)
      rw [show sortByTsDesc ((List.range 101).map (scPair sc)) =
          ((List.range 101).map (scPair sc)).reverse from
          insertionSort_of_ascending _ hasc]
      rw [← List.map_reverse, reverse_range_eq_map, List.map_map, ← List.map_take,
        List.take_range, show (100 ⊓ 101 : ℕ) = 100 from min_eq_left (by norm_num)]
      rfl
    · -- steady state: descending list plus a strictly newer element
      rw [expectedCache_gt sc (by omega : ¬ (m ≤ 100)),
        expectedCache_gt sc (by omega : ¬ (m + 1 ≤ 100))]
      unfold cleanup_if_needed
      rw [if_neg (by simp only [List.length_append, List.length_map, List.length_range,
        List.length_singleton]; omega)]
      have hdesc : List.Pairwise (fun p q => q.2.timestamp < p.2.timestamp)
          ((List.range 100).map (fun j => scPair sc (m - 1 - j))) := by
        rw [List.pairwise_map]
        exact pairwise_range_of 100 _
          (fun i j hij hj => hmono (m - 1 - j) (m - 1 - i) (by omega))
      have hmax : ∀ y ∈ (List.range 100).map (fun j => scPair sc (m - 1 - j)),
          y.2.timestamp < (scPair sc m).2.timestamp := by
        intro y hy
        obtain ⟨j, hj, rfl⟩ := List.mem_map.mp hy
        exact hmono (m - 1 - j) m (by omega)
      rw [show sortByTsDesc ((List.range 100).map (fun j => scPair sc (m - 1 - j)) ++
            [scPair sc m]) =
          scPair sc m :: (List.range 100).map (fun j => scPair sc (m - 1 - j)) from
          insertionSort_desc_append (scPair sc m) _ hdesc hmax,
        show (100 : ℕ) = 99 + 1 from rfl, List.take_succ_cons, ← List.map_take,
        List.take_range]
      have hg : (fun j => scPair sc (m + 1 - 1 - j)) ∘ Nat.succ =
          (fun j => scPair sc (m - 1 - j)) := by
        funext j
        simp only [Function.comp_apply]
        congr 1
        omega
      rw [List.range_succ_eq_map, List.map_cons, List.map_map, hg,
        show (99 ⊓ (99 + 1) : ℕ) = 99 from min_eq_left (by norm_num)]
      congr 1

theorem cleanup_if_needed_le (L : List (String × CacheEntry)) :
    (cleanup_if_needed 100 L).length ≤ 100 := by
  unfold cleanup_if_needed
  by_cases h : L.length ≤ 100
  · rw [if_pos h]
    exact h
  · rw [if_neg h]
    exact List.length_take_le _ _

/-- Claim C3: every storing `set` leaves at most 100 entries, and inserting
150 distinct keys at increasing times into an empty cache leaves exactly the
100 most recently written entries (keys 50 through 149). -/
theorem bounded_recency_eviction :
    (∀ (st : CacheState) (ctx : Ctx) (k v q i : String) (ttl : Option ℤ) (ov : MetaOverride),
      SmartTTL.should_cache i = true →
      (ResponseCache.set st ctx k v q i ttl ov).cache.length ≤ 100) ∧
    (∀ sc : InsertScript,
      (∀ i j, sc.key i = sc.key j → i = j) →
      (∀ i j, i < j → (sc.ctxs i).now < (sc.ctxs j).now) →
      SmartTTL.should_cache sc.intent = true →
      (insertSeq sc 150).cache.length = 100 ∧
      (∀ i, i < 150 → (sc.key i ∈ (insertSeq sc 150).cache.map Prod.fst ↔ 50 ≤ i))) := by
  constructor
  · intro st ctx k v q i ttl ov h
    unfold ResponseCache.set
    rw [if_pos h]
    exact cleanup_if_needed_le _
  · intro sc hinj hmono hcc
    have h := insertSeq_cache sc hinj hmono hcc 150
    rw [h, expectedCache_gt sc (by omega)]
    constructor
    · simp
    · intro i hi
      constructor
      · intro hmem
        simp only [List.map_map, List.mem_map] at hmem
        obtain ⟨j, hj, he⟩ := hmem
        have hj' := List.mem_range.mp hj
        have hij := hinj _ _ he
        omega
      · intro h50
        simp only [List.map_map, List.mem_map]
        refine ⟨149 - i, List.mem_range.mpr (by omega), ?_⟩
        show sc.key (150 - 1 - (149 - i)) = sc.key i
        congr 1
        omega

/-- `bounded_recency_eviction` at a concrete script: distinct keys
`'a' * i` inserted at times `0, 1, ..., 149` under "monuments". -/
theorem bounded_recency_eviction_witness :
    (ResponseCache.set initialCacheState ⟨5, "2026-01-01", "", 12⟩ "k2" "v" "q" "monuments"
        none noOverride).cache.length ≤ 100 ∧
    (insertSeq ⟨fun i => String.mk (List.replicate i 'a'), fun _ => "r",
        fun i => ⟨(i : ℚ), "2026-01-01", "", 12⟩, "monuments"⟩ 150).cache.length = 100 ∧
    ¬ (String.mk (List.replicate 0 'a') ∈
        (insertSeq ⟨fun i => String.mk (List.replicate i 'a'), fun _ => "r",
          fun i => ⟨(i : ℚ), "2026-01-01", "", 12⟩, "monuments"⟩ 150).cache.map Prod.fst) ∧
    String.mk (List.replicate 149 'a') ∈
      (insertSeq ⟨fun i => String.mk (List.replicate i 'a'), fun _ => "r",
        fun i => ⟨(i : ℚ), "2026-01-01", "", 12⟩, "monuments"⟩ 150).cache.map Prod.fst := by
  have hinj : ∀ i j, String.mk (List.replicate i 'a') = String.mk (List.replicate j 'a') →
      i = j := by
    intro i j hij
    have h2 := congrArg (fun s : String => s.data.length) hij
    simpa using h2
  have hmono : ∀ i j : ℕ, i < j →
      ((⟨(i : ℚ), "2026-01-01", "", 12⟩ : Ctx)).now < ((⟨(j : ℚ), "2026-01-01", "", 12⟩ :
        Ctx)).now := by
    intro i j hij
    show (i : ℚ) < (j : ℚ)
    exact_mod_cast hij
  have H := bounded_recency_eviction.2
    ⟨fun i => String.mk (List.replicate i 'a'), fun _ => "r",
      fun i => ⟨(i : ℚ), "2026-01-01", "", 12⟩, "monuments"⟩ hinj hmono (by decide)
  refine ⟨bounded_recency_eviction.1 initialCacheState ⟨5, "2026-01-01", "", 12⟩
      "k2" "v" "q" "monuments" none noOverride (by decide), H.1, ?_, ?_⟩
  · intro hmem
    have h50 := (H.2 0 (by norm_num)).mp hmem
    omega
  · exact (H.2 149 (by norm_num)).mpr (by norm_num)
